import Mathlib

/-!
Shallow embedding of the category rule engine of the repository
(`playlist_categorizer.py`) together with the manual-override entry point
(`update_playlist_category` in `web_server.py` / `app.py`), and proofs of the
specification claims about it.

Conventions of the embedding:
* Python strings are Lean `String`s; the scorer works on `List Char`.
* `re.findall(rf'\b{re.escape(keyword)}\b', text)` is embedded as a
  left-to-right, non-overlapping literal scanner with word-boundary checks
  (`countOccAux`, driven by a fuel argument equal to the text length so that
  the definition is structurally recursive and kernel-evaluable).  Word
  characters follow the ASCII fragment of Python's `\w` (the repository's
  data is ASCII).
* Python `float` confidence arithmetic is embedded in `ℚ`; every confidence
  the code produces is an integer divided by 20, and for such values the
  comparisons appearing in the code and the spec (`< 0.3`, `min (· ) 1.0`)
  agree between binary floats and rationals.
* The insertion-ordered Python `dict` of category scores is an association
  list (`addScore` updates in place or appends, preserving insertion order),
  and Python's `max(..., key=...)` is `pickBest` (first maximum wins).
-/

set_option maxRecDepth 8000

namespace YTO

/-- The fixed category vocabulary, `class PlaylistCategory(Enum)` in
`playlist_categorizer.py`, in declaration order. -/
inductive PlaylistCategory where
  | FOOD
  | CAREER
  | INVESTMENT
  | EDUCATION
  | ENTERTAINMENT
  | HEALTH_FITNESS
  | TECHNOLOGY
  | TRAVEL
  | LIFESTYLE
  | OTHER
deriving DecidableEq, Repr, Fintype

/-- The `.value` string of each enum member. -/
def PlaylistCategory.value : PlaylistCategory → String
  | .FOOD => "Food"
  | .CAREER => "Career"
  | .INVESTMENT => "Investment"
  | .EDUCATION => "Education"
  | .ENTERTAINMENT => "Entertainment"
  | .HEALTH_FITNESS => "Health & Fitness"
  | .TECHNOLOGY => "Technology"
  | .TRAVEL => "Travel"
  | .LIFESTYLE => "Lifestyle"
  | .OTHER => "Other"

/-- Iteration order of `for category in PlaylistCategory` (enum declaration
order). -/
def allCategories : List PlaylistCategory :=
  [.FOOD, .CAREER, .INVESTMENT, .EDUCATION, .ENTERTAINMENT,
   .HEALTH_FITNESS, .TECHNOLOGY, .TRAVEL, .LIFESTYLE, .OTHER]

/-- `@dataclass CategoryRule` — keywords, category and an integer weight. -/
structure CategoryRule where
  keywords : List String
  category : PlaylistCategory
  weight : Int
deriving DecidableEq, Repr

/-- ASCII fragment of Python's regex `\w` (word character) class. -/
def isWordChar (c : Char) : Bool :=
  c.isAlphanum || c == '_'

/-- Whether the first character of `l` is a word character (`false` for the
empty list, i.e. past the end of the text). -/
def headWord : List Char → Bool
  | [] => false
  | c :: _ => isWordChar c

/-- Whether the last character of `l` is a word character; `prev` is the
answer for the characters already consumed when `l` is empty. -/
def lastWord (prev : Bool) (l : List Char) : Bool :=
  l.foldl (fun _ c => isWordChar c) prev

/-- Core scanner for `re.findall(rf'\b{re.escape(kw)}\b', s)` with a nonempty
literal keyword `kw`: left-to-right, non-overlapping occurrences of `kw`
flanked by word boundaries.  `prev` records whether the character immediately
before the current suffix is a word character; `fuel` only drives structural
recursion (any `fuel ≥ s.length` computes the full scan). -/
def countOccAux (kw : List Char) : Nat → Bool → List Char → Nat
  | 0, _, _ => 0
  | _ + 1, _, [] => 0
  | fuel + 1, prev, c :: rest =>
    if !kw.isEmpty && kw.isPrefixOf (c :: rest) && (prev != isWordChar c)
        && (lastWord false kw != headWord ((c :: rest).drop kw.length)) then
      countOccAux kw fuel (lastWord false kw) ((c :: rest).drop kw.length) + 1
    else
      countOccAux kw fuel (isWordChar c) rest

/-- `re.findall(r'\b\b', s)` (the empty-keyword degenerate case of the
pattern): one zero-width match at every word boundary of `s`. -/
def countBoundaries (prev : Bool) : List Char → Nat
  | [] => if prev then 1 else 0
  | c :: rest =>
    (if prev != isWordChar c then 1 else 0) + countBoundaries (isWordChar c) rest

/-- `len(re.findall(rf'\b{re.escape(kw)}\b', s))`. -/
def countMatches (kw : List Char) (s : List Char) : Nat :=
  if kw.isEmpty then countBoundaries false s else countOccAux kw s.length false s

/-- `text = f"{title} {description}".lower()` of `categorize_playlist`. -/
def normalize (title description : String) : List Char :=
  (title ++ " " ++ description).data.map Char.toLower

/-- Lower-cased character list of a keyword (`keyword.lower()`). -/
def lowerData (s : String) : List Char :=
  s.data.map Char.toLower

/-- One keyword's occurrence count against the normalized text. -/
def keywordScore (text : List Char) (kw : String) : Nat :=
  countMatches (lowerData kw) text

/-- The inner loop of `categorize_playlist`: `score = 0; for keyword in
rule.keywords: score += keyword_count * rule.weight`. -/
def ruleScore (text : List Char) (r : CategoryRule) : Int :=
  r.keywords.foldl (fun s kw => s + (keywordScore text kw : Int) * r.weight) 0

/-- `category_scores[c] = category_scores.get-or-0 + s`, preserving the
insertion order of the Python dict: update in place if present, else append. -/
def addScore : List (PlaylistCategory × Int) → PlaylistCategory → Int →
    List (PlaylistCategory × Int)
  | [], c, s => [(c, s)]
  | e :: rest, c, s =>
    if e.1 = c then (e.1, e.2 + s) :: rest else e :: addScore rest c s

/-- Lookup in the score association list (0 when absent). -/
def getScore : List (PlaylistCategory × Int) → PlaylistCategory → Int
  | [], _ => 0
  | e :: rest, c => if e.1 = c then e.2 else getScore rest c

/-- One iteration of the rule loop of `categorize_playlist`: insert the rule's
score into the dict only `if score > 0`. -/
def scoreStep (text : List Char) (m : List (PlaylistCategory × Int))
    (r : CategoryRule) : List (PlaylistCategory × Int) :=
  if 0 < ruleScore text r then addScore m r.category (ruleScore text r) else m

/-- The whole rule loop: the insertion-ordered `category_scores` dict. -/
def scoreRules (rules : List CategoryRule) (text : List Char) :
    List (PlaylistCategory × Int) :=
  rules.foldl (scoreStep text) []

/-- `max(category_scores.items(), key=lambda x: x[1])` starting from a first
item `e`: the first entry attaining the maximal score wins. -/
def pickBest (e : PlaylistCategory × Int) (l : List (PlaylistCategory × Int)) :
    PlaylistCategory × Int :=
  l.foldl (fun b x => if b.2 < x.2 then x else b) e

/-- `max` over the whole dict, `none` when it is empty. -/
def bestEntry : List (PlaylistCategory × Int) → Option (PlaylistCategory × Int)
  | [] => none
  | e :: rest => some (pickBest e rest)

/-- `PlaylistCategorizer.__init__`: builtin rules plus the runtime-appended
custom rules. -/
structure PlaylistCategorizer where
  rules : List CategoryRule
  custom_rules : List CategoryRule
deriving DecidableEq, Repr

/-- `PlaylistCategorizer._initialize_rules`, transcribed rule by rule. -/
def _initialize_rules : List CategoryRule :=
  [ { keywords :=
        ["pizza", "recipe", "recipes", "cooking", "food", "bake", "baked", "brownies",
         "cookies", "bread", "fruit", "vegetable", "veg", "masala", "falafel", "hummus",
         "spreads", "carrot", "quinoa", "cauliflower", "mushroom", "tomato", "pumpkin",
         "laddu", "chutney", "amla", "drumsticks", "kofta", "noodles", "parwal",
         "methi", "soyabean", "curry", "kanji", "poha", "achar", "sabji", "pulao",
         "chaat", "snacks", "millet", "singhada", "lotus", "vermicelli", "dry fruits",
         "rice", "sprouts", "thecha", "satvik", "air fry", "indian", "chinese"],
      category := .FOOD, weight := 10 },
    { keywords :=
        ["career", "product management", "professional", "business", "work", "job",
         "interview", "resume", "skills", "development", "leadership", "management"],
      category := .CAREER, weight := 8 },
    { keywords :=
        ["investment", "investing", "stock", "trading", "finance", "money", "wealth",
         "portfolio", "mutual fund", "crypto", "bitcoin", "market", "shares"],
      category := .INVESTMENT, weight := 8 },
    { keywords :=
        ["exercise", "workout", "fitness", "health", "yoga", "gym", "training",
         "weight loss", "diet", "nutrition", "meditation", "wellness"],
      category := .HEALTH_FITNESS, weight := 7 },
    { keywords :=
        ["learn", "tutorial", "course", "education", "study", "academic", "lesson",
         "programming", "coding", "math", "science", "history", "language"],
      category := .EDUCATION, weight := 6 },
    { keywords :=
        ["tech", "technology", "software", "app", "programming", "coding", "computer",
         "ai", "machine learning", "data science", "web development", "mobile"],
      category := .TECHNOLOGY, weight := 6 },
    { keywords :=
        ["travel", "trip", "vacation", "tourism", "destination", "hotel", "flight",
         "adventure", "explore", "journey", "wanderlust"],
      category := .TRAVEL, weight := 5 },
    { keywords :=
        ["movie", "music", "song", "comedy", "entertainment", "gaming", "show",
         "series", "drama", "funny", "dance", "performance"],
      category := .ENTERTAINMENT, weight := 5 },
    { keywords :=
        ["lifestyle", "fashion", "beauty", "style", "hairstyles", "home", "decor",
         "personal", "daily", "routine", "tips", "life hacks"],
      category := .LIFESTYLE, weight := 4 } ]

/-- A freshly constructed `PlaylistCategorizer()`. -/
def initCategorizer : PlaylistCategorizer :=
  { rules := _initialize_rules, custom_rules := [] }

/-- `PlaylistCategorizer.add_custom_rule`: append one rule. -/
def add_custom_rule (pc : PlaylistCategorizer) (keywords : List String)
    (category : PlaylistCategory) (weight : Int) : PlaylistCategorizer :=
  { pc with custom_rules := pc.custom_rules ++ [⟨keywords, category, weight⟩] }

/-- `all_rules = self.rules + self.custom_rules` in `categorize_playlist`. -/
def PlaylistCategorizer.allRules (pc : PlaylistCategorizer) : List CategoryRule :=
  pc.rules ++ pc.custom_rules

/-- `PlaylistCategorizer.categorize_playlist`: normalize, score every rule,
then either fall back to `(Other, 0.0)` or take the maximal entry and a
confidence of `min(best_score / 20.0, 1.0)`. -/
def categorize_playlist (pc : PlaylistCategorizer) (title : String)
    (description : String) : PlaylistCategory × ℚ :=
  match bestEntry (scoreRules pc.allRules (normalize title description)) with
  | none => (PlaylistCategory.OTHER, 0)
  | some e => (e.1, min ((e.2 : ℚ) / 20) 1)

/-- A playlist record as consumed by the engine (`title`, `description`,
`video_count` fields of the playlist dict; other fields are passthrough). -/
structure Playlist where
  title : String
  description : String
  video_count : Nat
deriving DecidableEq, Repr

/-- A playlist dict after `categorize_playlists` added `category` (stored in
Python as the `.value` string, recoverable injectively from the enum) and
`category_confidence`. -/
structure CategorizedPlaylist where
  playlist : Playlist
  category : PlaylistCategory
  category_confidence : ℚ
deriving DecidableEq, Repr

/-- `PlaylistCategorizer.categorize_playlists`: classify each record in input
order, leaving the record data intact. -/
def categorize_playlists (pc : PlaylistCategorizer) (ps : List Playlist) :
    List CategorizedPlaylist :=
  ps.map fun p =>
    { playlist := p
      category := (categorize_playlist pc p.title p.description).1
      category_confidence := (categorize_playlist pc p.title p.description).2 }

/-- One value of the summary dict of `get_category_summary`. -/
structure SummaryEntry where
  playlist_count : Nat
  total_videos : Nat
  playlists : List CategorizedPlaylist
deriving DecidableEq, Repr

/-- `PlaylistCategorizer.get_category_summary`: re-categorize, then one entry
per vocabulary category (keyed by `category.value`), with the members filtered
in input order, their count and total `video_count`. -/
def get_category_summary (pc : PlaylistCategorizer) (ps : List Playlist) :
    List (String × SummaryEntry) :=
  allCategories.map fun c =>
    (c.value,
      { playlist_count :=
          ((categorize_playlists pc ps).filter
            (fun p => p.category.value == c.value)).length
        total_videos :=
          (((categorize_playlists pc ps).filter
            (fun p => p.category.value == c.value)).map
              (fun p => p.playlist.video_count)).sum
        playlists :=
          (categorize_playlists pc ps).filter
            (fun p => p.category.value == c.value) })

/-- `PlaylistCategorizer.suggest_category_improvements`: the categorized
records with `category_confidence < 0.3` or category `Other`. -/
def suggest_category_improvements (pc : PlaylistCategorizer)
    (ps : List Playlist) : List CategorizedPlaylist :=
  (categorize_playlists pc ps).filter fun p =>
    decide (p.category_confidence < 3 / 10)
      || (p.category.value == PlaylistCategory.OTHER.value)

/-- Outcome of the `update_playlist_category` HTTP handler (identical logic in
`web_server.py` and `app.py`): the 400 "Category is required" reply, the 400
"Invalid category" reply, or success after `add_custom_rule`. -/
inductive UpdateResult where
  | missingCategory : UpdateResult
  | invalidCategory : String → UpdateResult
  | updated : PlaylistCategorizer → String → String → UpdateResult
deriving DecidableEq, Repr

/-- `PlaylistCategory(new_category)`: enum lookup by value. -/
def categoryOfString (s : String) : Option PlaylistCategory :=
  allCategories.find? fun c => c.value == s

/-- The `update_playlist_category` handler body: reject a missing/falsy
category, reject an unknown label, otherwise append a custom rule keyed on the
playlist id with weight 10. -/
def update_playlist_category (pc : PlaylistCategorizer) (playlist_id : String)
    (category : Option String) : UpdateResult :=
  match category with
  | none => .missingCategory
  | some s =>
    if s = "" then .missingCategory
    else
      match categoryOfString s with
      | none => .invalidCategory s
      | some c => .updated (add_custom_rule pc [playlist_id] c 10) playlist_id s

/-- Concrete fixture: the "Pizza" playlist from the repository's own example
data (`main()` of `playlist_categorizer.py`), with 3 videos. -/
def pizzaPlaylist : Playlist :=
  { title := "Pizza", description := "Delicious pizza recipes", video_count := 3 }

/-- The categorized form of `pizzaPlaylist` under the builtin rules. -/
def pizzaCategorized : CategorizedPlaylist :=
  { playlist := pizzaPlaylist, category := .FOOD, category_confidence := 1 }

/-- Concrete fixture batch: an unmatched playlist followed by a food one. -/
def reviewBatch : List Playlist :=
  [{ title := "Random stuff", description := "Various videos", video_count := 2 },
   { title := "Pizza", description := "Delicious pizza recipes", video_count := 1 }]

/-- The categorized form of the first element of `reviewBatch`. -/
def randomCategorized : CategorizedPlaylist :=
  { playlist := { title := "Random stuff", description := "Various videos", video_count := 2 }
    category := .OTHER, category_confidence := 0 }

/-- The categorized form of the second element of `reviewBatch`. -/
def pizzaCategorized1 : CategorizedPlaylist :=
  { playlist := { title := "Pizza", description := "Delicious pizza recipes", video_count := 1 }
    category := .FOOD, category_confidence := 1 }

/-! ### Basic facts about the vocabulary -/

theorem value_injective : ∀ a b : PlaylistCategory, a.value = b.value → a = b := by
  decide

theorem mem_allCategories : ∀ c : PlaylistCategory, c ∈ allCategories := by
  decide

/-! ### Word-boundary scanner lemmas -/

theorem lastWord_nil (p : Bool) : lastWord p [] = p := rfl

theorem lastWord_cons (p : Bool) (c : Char) (l : List Char) :
    lastWord p (c :: l) = lastWord (isWordChar c) l := rfl

/-- Soundness of the scanner: whenever it reports at least one occurrence,
the keyword really occurs in the text flanked by word boundaries (`prev`
standing for the word-character status of the character just before `s`). -/
theorem countOccAux_sound : ∀ (fuel : Nat) (kw : List Char) (prev : Bool)
    (s : List Char), countOccAux kw fuel prev s ≠ 0 →
    ∃ u v, s = u ++ kw ++ v ∧ lastWord prev u ≠ headWord kw ∧
      lastWord false kw ≠ headWord v := by
  intro fuel
  induction fuel with
  | zero => intro kw prev s h; simp [countOccAux] at h
  | succ f ih =>
    intro kw prev s h
    match s with
    | [] => simp [countOccAux] at h
    | c :: rest =>
      rw [countOccAux] at h
      by_cases hc : (!kw.isEmpty && kw.isPrefixOf (c :: rest)
          && (prev != isWordChar c)
          && (lastWord false kw != headWord ((c :: rest).drop kw.length))) = true
      · have hparts := hc
        simp only [Bool.and_eq_true, Bool.not_eq_true', bne_iff_ne, ne_eq,
          List.isEmpty_eq_false, List.isPrefixOf_iff_prefix] at hparts
        obtain ⟨⟨⟨hne, hpre⟩, hstart⟩, hend⟩ := hparts
        obtain ⟨t, ht⟩ := hpre
        refine ⟨[], (c :: rest).drop kw.length, ?_, ?_, ?_⟩
        · rw [List.nil_append, ← ht, List.drop_left]
        · rw [lastWord_nil]
          match kw, hne with
          | k :: kw', _ =>
            have hk : k = c := by
              have := ht
              rw [List.cons_append] at this
              exact (List.cons.injEq _ _ _ _ ▸ this).1
            simpa [headWord, hk] using hstart
        · exact hend
      · have hc' : (!kw.isEmpty && kw.isPrefixOf (c :: rest)
            && (prev != isWordChar c)
            && (lastWord false kw != headWord ((c :: rest).drop kw.length))) = false := by
          simpa using hc
        rw [hc'] at h
        simp only [Bool.false_eq_true, if_false] at h
        obtain ⟨u, v, hs, h1, h2⟩ := ih kw (isWordChar c) rest h
        exact ⟨c :: u, v, by rw [hs]; rfl, by rwa [lastWord_cons], h2⟩

/-- Soundness transported to `countMatches` for a nonempty keyword. -/
theorem countMatches_sound (kw s : List Char) (hne : kw ≠ [])
    (h : countMatches kw s ≠ 0) :
    ∃ u v, s = u ++ kw ++ v ∧ lastWord false u ≠ headWord kw ∧
      lastWord false kw ≠ headWord v := by
  rw [countMatches] at h
  rw [if_neg (by simpa [List.isEmpty_iff] using hne)] at h
  exact countOccAux_sound s.length kw false s h

/-! ### Score-map lemmas -/

theorem getScore_addScore (m : List (PlaylistCategory × Int))
    (c : PlaylistCategory) (s : Int) (x : PlaylistCategory) :
    getScore (addScore m c s) x
      = if x = c then getScore m x + s else getScore m x := by
  induction m with
  | nil =>
    by_cases h : x = c
    · subst h; simp [addScore, getScore]
    · have h' : ¬ c = x := fun hcx => h hcx.symm
      simp [addScore, getScore, h, h']
  | cons e m ih =>
    by_cases h1 : e.1 = c
    · by_cases h2 : x = c
      · subst h2; simp [addScore, getScore, h1]
      · have h3 : e.1 ≠ x := fun he => h2 (he ▸ h1)
        have h2' : ¬ c = x := fun hcx => h2 hcx.symm
        simp [addScore, getScore, h1, h3, h2, h2']
    · by_cases h2 : e.1 = x
      · have h3 : ¬ x = c := fun he => h1 (h2.trans he)
        simp [addScore, getScore, h1, h2, h3]
      · simp [addScore, getScore, h1, h2, ih]

/-- Additive accumulation: after folding the rule list, each category's score
is exactly the sum of the (positive) scores of the rules that target it. -/
theorem getScore_foldl (text : List Char) :
    ∀ (rules : List CategoryRule) (m : List (PlaylistCategory × Int))
      (c : PlaylistCategory),
      getScore (rules.foldl (scoreStep text) m) c
        = getScore m c
          + ((rules.filter
              (fun r => r.category == c && decide (0 < ruleScore text r))).map
                (fun r => ruleScore text r)).sum := by
  intro rules
  induction rules with
  | nil => intro m c; simp
  | cons r rules ih =>
    intro m c
    rw [List.foldl_cons, ih]
    by_cases hr : 0 < ruleScore text r
    · by_cases hcat : r.category = c
      · rw [List.filter_cons_of_pos (by simp [hcat, hr])]
        rw [scoreStep, if_pos hr, getScore_addScore, if_pos hcat.symm]
        rw [List.map_cons, List.sum_cons]
        omega
      · rw [List.filter_cons_of_neg (by simp [hcat])]
        rw [scoreStep, if_pos hr, getScore_addScore,
          if_neg (fun he => hcat he.symm)]
    · rw [List.filter_cons_of_neg (by simp [hr])]
      rw [scoreStep, if_neg hr]

/-- Every value ever stored in the score map is positive (the code inserts a
rule's score only when it is `> 0` and only adds positive amounts). -/
theorem addScore_pos (m : List (PlaylistCategory × Int)) (c : PlaylistCategory)
    (s : Int) (hs : 0 < s) (hm : ∀ e ∈ m, 0 < e.2) :
    ∀ e ∈ addScore m c s, 0 < e.2 := by
  induction m with
  | nil =>
    intro e he
    simp only [addScore, List.mem_singleton] at he
    simpa [he] using hs
  | cons a m ih =>
    intro e he
    rw [addScore] at he
    by_cases h1 : a.1 = c
    · rw [if_pos h1] at he
      rcases List.mem_cons.mp he with rfl | he'
      · have := hm a (List.mem_cons_self a m)
        simpa using by omega
      · exact hm e (List.mem_cons_of_mem a he')
    · rw [if_neg h1] at he
      rcases List.mem_cons.mp he with rfl | he'
      · exact hm e (List.mem_cons_self e m)
      · exact ih (fun x hx => hm x (List.mem_cons_of_mem a hx)) e he'

theorem scoreRules_foldl_pos (text : List Char) :
    ∀ (rules : List CategoryRule) (m : List (PlaylistCategory × Int)),
      (∀ e ∈ m, 0 < e.2) →
      ∀ e ∈ rules.foldl (scoreStep text) m, 0 < e.2 := by
  intro rules
  induction rules with
  | nil => intro m hm; simpa using hm
  | cons r rules ih =>
    intro m hm
    rw [List.foldl_cons]
    apply ih
    rw [scoreStep]
    by_cases hr : 0 < ruleScore text r
    · rw [if_pos hr]; exact addScore_pos m r.category _ hr hm
    · rwa [if_neg hr]

theorem scoreRules_pos (rules : List CategoryRule) (text : List Char) :
    ∀ e ∈ scoreRules rules text, 0 < e.2 :=
  scoreRules_foldl_pos text rules [] (by simp)

/-- Categories present in the score map were put there by some rule. -/
theorem addScore_cats (m : List (PlaylistCategory × Int)) (c : PlaylistCategory)
    (s : Int) : ∀ e ∈ addScore m c s, e.1 = c ∨ ∃ a ∈ m, e.1 = a.1 := by
  induction m with
  | nil => intro e he; simp only [addScore, List.mem_singleton] at he; simp [he]
  | cons a m ih =>
    intro e he
    rw [addScore] at he
    by_cases h1 : a.1 = c
    · rw [if_pos h1] at he
      rcases List.mem_cons.mp he with rfl | he'
      · exact Or.inr ⟨a, List.mem_cons_self a m, rfl⟩
      · exact Or.inr ⟨e, List.mem_cons_of_mem a he', rfl⟩
    · rw [if_neg h1] at he
      rcases List.mem_cons.mp he with rfl | he'
      · exact Or.inr ⟨e, List.mem_cons_self e m, rfl⟩
      · rcases ih e he' with h | ⟨b, hb, hbe⟩
        · exact Or.inl h
        · exact Or.inr ⟨b, List.mem_cons_of_mem a hb, hbe⟩

theorem scoreRules_foldl_cats (text : List Char) :
    ∀ (rules : List CategoryRule) (m : List (PlaylistCategory × Int)),
      ∀ e ∈ rules.foldl (scoreStep text) m,
        (∃ a ∈ m, e.1 = a.1) ∨ ∃ r ∈ rules, r.category = e.1 := by
  intro rules
  induction rules with
  | nil => intro m e he; exact Or.inl ⟨e, by simpa using he, rfl⟩
  | cons r rules ih =>
    intro m e he
    rw [List.foldl_cons] at he
    rcases ih (scoreStep text m r) e he with ⟨a, ha, hea⟩ | ⟨r', hr', her⟩
    · rw [scoreStep] at ha
      by_cases hr : 0 < ruleScore text r
      · rw [if_pos hr] at ha
        rcases addScore_cats m r.category _ a ha with h | ⟨b, hb, hab⟩
        · exact Or.inr ⟨r, List.mem_cons_self r rules, by rw [← h, hea]⟩
        · exact Or.inl ⟨b, hb, hea.trans hab⟩
      · rw [if_neg hr] at ha
        exact Or.inl ⟨a, ha, hea⟩
    · exact Or.inr ⟨r', List.mem_cons_of_mem r hr', her⟩

theorem scoreRules_cats (rules : List CategoryRule) (text : List Char) :
    ∀ e ∈ scoreRules rules text, ∃ r ∈ rules, r.category = e.1 := by
  intro e he
  rcases scoreRules_foldl_cats text rules [] e he with ⟨a, ha, _⟩ | h
  · simp at ha
  · exact h

/-! ### Maximum-selection lemmas -/

theorem pickBest_cons (e x : PlaylistCategory × Int)
    (l : List (PlaylistCategory × Int)) :
    pickBest e (x :: l) = pickBest (if e.2 < x.2 then x else e) l := rfl

theorem pickBest_ge (l : List (PlaylistCategory × Int)) :
    ∀ e, e.2 ≤ (pickBest e l).2 := by
  induction l with
  | nil => intro e; exact le_refl _
  | cons x l ih =>
    intro e
    rw [pickBest_cons]
    by_cases h : e.2 < x.2
    · rw [if_pos h]; exact le_of_lt (lt_of_lt_of_le h (ih x))
    · rw [if_neg h]; exact ih e

/-- `pickBest` returns the first entry attaining the maximal score: everything
strictly before it in the list scores strictly less, everything after scores
no more. -/
theorem pickBest_split (l : List (PlaylistCategory × Int)) :
    ∀ e, ∃ u v, e :: l = u ++ pickBest e l :: v
      ∧ (∀ x ∈ u, x.2 < (pickBest e l).2)
      ∧ (∀ x ∈ v, x.2 ≤ (pickBest e l).2) := by
  induction l with
  | nil => intro e; exact ⟨[], [], rfl, by simp, by simp⟩
  | cons x l ih =>
    intro e
    rw [pickBest_cons]
    by_cases h : e.2 < x.2
    · rw [if_pos h]
      obtain ⟨u, v, hsplit, hu, hv⟩ := ih x
      refine ⟨e :: u, v, ?_, ?_, hv⟩
      · rw [List.cons_append, ← hsplit]
      · intro y hy
        rcases List.mem_cons.mp hy with rfl | hy'
        · exact lt_of_lt_of_le h (pickBest_ge l x)
        · exact hu y hy'
    · rw [if_neg h]
      obtain ⟨u, v, hsplit, hu, hv⟩ := ih e
      match u, hsplit with
      | [], hsplit =>
        rw [List.nil_append] at hsplit
        have he : e = pickBest e l := (List.cons.injEq _ _ _ _ ▸ hsplit).1
        have hl : l = v := (List.cons.injEq _ _ _ _ ▸ hsplit).2
        refine ⟨[], x :: v, ?_, by simp, ?_⟩
        · rw [List.nil_append, ← he, ← hl]
        · intro y hy
          rcases List.mem_cons.mp hy with rfl | hy'
          · rw [← he]; exact le_of_not_lt h
          · exact hv y hy'
      | a :: u', hsplit =>
        rw [List.cons_append] at hsplit
        have ha : e = a := (List.cons.injEq _ _ _ _ ▸ hsplit).1
        have hl : l = u' ++ pickBest e l :: v :=
          (List.cons.injEq _ _ _ _ ▸ hsplit).2
        refine ⟨e :: x :: u', v, ?_, ?_, hv⟩
        · rw [List.cons_append, List.cons_append, ← hl]
        · intro y hy
          have hea : e ∈ a :: u' := by rw [← ha]; exact List.mem_cons_self e u'
          rcases List.mem_cons.mp hy with rfl | hy'
          · exact hu y hea
          · rcases List.mem_cons.mp hy' with rfl | hy''
            · exact lt_of_le_of_lt (le_of_not_lt h) (hu e hea)
            · exact hu y (List.mem_cons_of_mem a hy'')

theorem bestEntry_split (m : List (PlaylistCategory × Int))
    (b : PlaylistCategory × Int) (hb : bestEntry m = some b) :
    ∃ u v, m = u ++ b :: v ∧ (∀ x ∈ u, x.2 < b.2) ∧ ∀ x ∈ v, x.2 ≤ b.2 := by
  match m, hb with
  | e :: rest, hb =>
    have hbe : pickBest e rest = b := by
      simpa [bestEntry] using hb
    obtain ⟨u, v, hsplit, hu, hv⟩ := pickBest_split rest e
    rw [hbe] at hsplit hu hv
    exact ⟨u, v, hsplit, hu, hv⟩

theorem bestEntry_mem (m : List (PlaylistCategory × Int))
    (b : PlaylistCategory × Int) (hb : bestEntry m = some b) : b ∈ m := by
  obtain ⟨u, v, hsplit, -, -⟩ := bestEntry_split m b hb
  rw [hsplit]
  exact List.mem_append_right u (List.mem_cons_self b v)

theorem bestEntry_eq_none (m : List (PlaylistCategory × Int)) :
    bestEntry m = none ↔ m = [] := by
  cases m <;> simp [bestEntry]

/-! ### Rules whose keywords never occur contribute nothing -/

theorem ruleScore_foldl_zero (text : List Char) (w : Int) :
    ∀ (kws : List String) (a : Int),
      (∀ kw ∈ kws, keywordScore text kw = 0) →
      kws.foldl (fun s kw => s + (keywordScore text kw : Int) * w) a = a := by
  intro kws
  induction kws with
  | nil => intro a _; rfl
  | cons kw kws ih =>
    intro a h
    rw [List.foldl_cons, h kw (List.mem_cons_self kw kws)]
    simpa using ih a fun x hx => h x (List.mem_cons_of_mem kw hx)

theorem ruleScore_zero (text : List Char) (r : CategoryRule)
    (h : ∀ kw ∈ r.keywords, keywordScore text kw = 0) :
    ruleScore text r = 0 :=
  ruleScore_foldl_zero text r.weight r.keywords 0 h

theorem scoreRules_foldl_no_match (text : List Char) :
    ∀ (rules : List CategoryRule) (m : List (PlaylistCategory × Int)),
      (∀ r ∈ rules, ¬ 0 < ruleScore text r) →
      rules.foldl (scoreStep text) m = m := by
  intro rules
  induction rules with
  | nil => intro m _; rfl
  | cons r rules ih =>
    intro m h
    rw [List.foldl_cons, scoreStep, if_neg (h r (List.mem_cons_self r rules))]
    exact ih m fun x hx => h x (List.mem_cons_of_mem r hx)

theorem scoreRules_append_zero (rules : List CategoryRule) (r : CategoryRule)
    (text : List Char) (h : ruleScore text r = 0) :
    scoreRules (rules ++ [r]) text = scoreRules rules text := by
  rw [scoreRules, List.foldl_append, List.foldl_cons, List.foldl_nil,
    scoreStep, if_neg (by rw [h]; exact lt_irrefl 0), scoreRules]

/-! ### Partition lemmas for the summary -/

theorem sum_map_add_nat {α : Type} (l : List α) (g h : α → Nat) :
    (l.map (fun a => g a + h a)).sum = (l.map g).sum + (l.map h).sum := by
  induction l with
  | nil => rfl
  | cons a l ih => simp [ih]; omega

theorem value_beq : ∀ a b : PlaylistCategory,
    (a.value == b.value) = (a == b) := by
  decide

theorem indicator_sum (x : PlaylistCategory) (n : Nat) :
    (allCategories.map
      (fun c => if x.value == c.value then n else 0)).sum = n := by
  simp only [value_beq]
  cases x <;> simp [allCategories, beq_iff_eq]

theorem length_eq_sum_ones (l : List CategorizedPlaylist) :
    l.length = (l.map (fun _ => (1 : Nat))).sum := by
  induction l with
  | nil => rfl
  | cons a l ih =>
    rw [List.length_cons, List.map_cons, List.sum_cons, ih]
    omega

/-- Partitioning a categorized batch by the ten vocabulary categories and
summing any per-record weight over the parts gives the total over the batch:
every record lands in exactly one part. -/
theorem partition_sum (f : CategorizedPlaylist → Nat) :
    ∀ l : List CategorizedPlaylist,
      (allCategories.map
        (fun c => ((l.filter (fun p => p.category.value == c.value)).map f).sum)).sum
        = (l.map f).sum := by
  intro l
  induction l with
  | nil => simp
  | cons p l ih =>
    have hstep : (fun c : PlaylistCategory =>
          (((p :: l).filter (fun q => q.category.value == c.value)).map f).sum)
        = fun c => (if p.category.value == c.value then f p else 0)
            + ((l.filter (fun q => q.category.value == c.value)).map f).sum := by
      funext c
      rw [List.filter_cons]
      by_cases h : (p.category.value == c.value) = true
      · rw [if_pos h, List.map_cons, List.sum_cons, if_pos h]
      · have h' : ¬ (p.category.value == c.value) = true := h
        rw [if_neg h', if_neg h']
        simp
    rw [hstep, sum_map_add_nat, indicator_sum, ih, List.map_cons, List.sum_cons]

/-! ### The review-suggestion predicate -/

theorem suggest_pred_iff (p : CategorizedPlaylist) :
    (decide (p.category_confidence < 3 / 10)
        || (p.category.value == PlaylistCategory.OTHER.value)) = true
      ↔ (p.category_confidence < 3 / 10 ∨ p.category = PlaylistCategory.OTHER) := by
  rw [Bool.or_eq_true, decide_eq_true_iff, beq_iff_eq]
  constructor
  · rintro (h | h)
    · exact Or.inl h
    · exact Or.inr (value_injective _ _ h)
  · rintro (h | h)
    · exact Or.inl h
    · exact Or.inr (by rw [h])

/-! ### Enum lookup by value -/

theorem categoryOfString_some (s : String) (c : PlaylistCategory) :
    categoryOfString s = some c ↔ c.value = s := by
  constructor
  · intro h
    have := List.find?_some h
    exact beq_iff_eq.mp this
  · intro h
    cases c <;> rw [← h] <;> decide

theorem categoryOfString_none (s : String) :
    categoryOfString s = none ↔ ∀ c : PlaylistCategory, c.value ≠ s := by
  rw [categoryOfString, List.find?_eq_none]
  constructor
  · intro h c hc
    exact absurd (beq_iff_eq.mpr hc) (h c (mem_allCategories c))
  · intro h x _
    simpa [beq_iff_eq] using h x

/-! ### The specification claims -/

/-- C1: for every categorizer state and every title/description (including
empty ones), `categorize_playlist` returns exactly one category drawn from the
fixed vocabulary together with a confidence `c` with `0 ≤ c ≤ 1`. -/
theorem categorize_playlist_total (pc : PlaylistCategorizer)
    (title description : String) :
    (categorize_playlist pc title description).1 ∈ allCategories
    ∧ 0 ≤ (categorize_playlist pc title description).2
    ∧ (categorize_playlist pc title description).2 ≤ 1 := by
  cases hm : bestEntry (scoreRules pc.allRules (normalize title description)) with
  | none =>
    simp only [categorize_playlist, hm]
    exact ⟨mem_allCategories _, le_refl 0, by norm_num⟩
  | some b =>
    have hmem := bestEntry_mem _ b hm
    have hpos := scoreRules_pos pc.allRules (normalize title description) b hmem
    simp only [categorize_playlist, hm]
    refine ⟨mem_allCategories _, ?_, min_le_right _ _⟩
    have hb : (0 : ℚ) ≤ (b.2 : ℚ) := by exact_mod_cast le_of_lt hpos
    exact le_min (div_nonneg hb (by norm_num)) (by norm_num)

/-- C2: the scorer counts only case-insensitive whole-word (whole-phrase for
multi-word keywords) occurrences bounded by word edges — whenever the count is
nonzero the keyword occurs in the text with a word boundary on each side, so a
keyword never matches inside a longer token (e.g. "cake" inside "cupcakery"
counts 0) — and each rule's score is its keyword-occurrence total times its
weight, with the rules targeting the same category accumulating additively in
the score map. -/
theorem scoring_whole_word_additive :
    (∀ kw text : List Char, kw ≠ [] → countMatches kw text ≠ 0 →
      ∃ u v, text = u ++ kw ++ v ∧ lastWord false u ≠ headWord kw
        ∧ lastWord false kw ≠ headWord v)
    ∧ (∀ (rules : List CategoryRule) (text : List Char) (c : PlaylistCategory),
        getScore (scoreRules rules text) c
          = ((rules.filter
              (fun r => r.category == c && decide (0 < ruleScore text r))).map
                (fun r => ruleScore text r)).sum)
    ∧ countMatches (lowerData "cake") "cupcakery".data = 0
    ∧ countMatches (lowerData "product management")
        (lowerData "intro to product management here") = 1 := by
  refine ⟨fun kw text hne h => countMatches_sound kw text hne h,
    fun rules text c => ?_, by decide, by decide⟩
  have h := getScore_foldl text rules [] c
  rw [scoreRules, h]
  simp [getScore]

/-- Witness for C2: the whole-word decomposition applied to "cake" occurring
in "a cake !". -/
theorem scoring_whole_word_witness :
    ∃ u v, ("a cake !".data : List Char) = u ++ "cake".data ++ v
      ∧ lastWord false u ≠ headWord "cake".data
      ∧ lastWord false "cake".data ≠ headWord v :=
  scoring_whole_word_additive.1 "cake".data "a cake !".data (by decide) (by decide)

/-- C3: on a non-empty score map, `categorize_playlist` returns the category
of the entry with the maximal score, and among entries sharing the maximal
score the one earliest in insertion order wins: the score map splits as
`u ++ winner :: v` where everything in `u` scores strictly less and everything
in `v` scores no more. -/
theorem categorize_max_first (pc : PlaylistCategorizer)
    (title description : String)
    (hne : scoreRules pc.allRules (normalize title description) ≠ []) :
    ∃ (s : Int) (u v : List (PlaylistCategory × Int)),
      scoreRules pc.allRules (normalize title description)
        = u ++ ((categorize_playlist pc title description).1, s) :: v
      ∧ (categorize_playlist pc title description).2 = min ((s : ℚ) / 20) 1
      ∧ (∀ x ∈ u, x.2 < s) ∧ (∀ x ∈ v, x.2 ≤ s) := by
  cases hm : bestEntry (scoreRules pc.allRules (normalize title description)) with
  | none => exact absurd ((bestEntry_eq_none _).mp hm) hne
  | some b =>
    obtain ⟨u, v, hsplit, hu, hv⟩ := bestEntry_split _ b hm
    refine ⟨b.2, u, v, ?_, ?_, hu, hv⟩
    · simp only [categorize_playlist, hm]
      exact hsplit
    · simp only [categorize_playlist, hm]

/-- Witness for C3 at the "Pizza" fixture, whose score map is non-empty. -/
theorem categorize_max_witness :
    ∃ (s : Int) (u v : List (PlaylistCategory × Int)),
      scoreRules initCategorizer.allRules
          (normalize "Pizza" "Delicious pizza recipes")
        = u ++ ((categorize_playlist initCategorizer "Pizza"
            "Delicious pizza recipes").1, s) :: v
      ∧ (categorize_playlist initCategorizer "Pizza"
            "Delicious pizza recipes").2 = min ((s : ℚ) / 20) 1
      ∧ (∀ x ∈ u, x.2 < s) ∧ (∀ x ∈ v, x.2 ≤ s) :=
  categorize_max_first initCategorizer "Pizza" "Delicious pizza recipes"
    (by decide)

/-- C4: on title "Pizza" and description "Delicious pizza recipes" with the
builtin rules, the normalized text is "pizza delicious pizza recipes", keyword
"pizza" matches twice and "recipes" once, the Food rule (and only it) scores
(2+1)·10 = 30, and the result is (Food, min(30/20, 1)) = (Food, 1). -/
theorem categorize_pizza_example :
    normalize "Pizza" "Delicious pizza recipes"
        = "pizza delicious pizza recipes".data
    ∧ countMatches (lowerData "pizza")
        (normalize "Pizza" "Delicious pizza recipes") = 2
    ∧ countMatches (lowerData "recipes")
        (normalize "Pizza" "Delicious pizza recipes") = 1
    ∧ (_initialize_rules.map
        (fun r => ruleScore (normalize "Pizza" "Delicious pizza recipes") r))
        = [30, 0, 0, 0, 0, 0, 0, 0, 0]
    ∧ categorize_playlist initCategorizer "Pizza" "Delicious pizza recipes"
        = (PlaylistCategory.FOOD, 1) := by
  refine ⟨by decide, by decide, by decide, by decide, ?_⟩
  with_unfolding_all rfl

/-- C5: `get_category_summary` has exactly one entry per vocabulary category
(in enum order, including empty ones), its counts sum to the batch size, its
video totals sum to the batch's total video count, and every member list is a
subsequence of the categorized batch (hence in original input order). -/
theorem get_category_summary_partition (pc : PlaylistCategorizer)
    (ps : List Playlist) :
    (get_category_summary pc ps).map Prod.fst
        = allCategories.map PlaylistCategory.value
    ∧ ((get_category_summary pc ps).map (fun e => e.2.playlist_count)).sum
        = ps.length
    ∧ ((get_category_summary pc ps).map (fun e => e.2.total_videos)).sum
        = (ps.map (fun p => p.video_count)).sum
    ∧ ∀ e ∈ get_category_summary pc ps,
        e.2.playlists.Sublist (categorize_playlists pc ps) := by
  refine ⟨?_, ?_, ?_, ?_⟩
  · rw [get_category_summary, List.map_map]
    rfl
  · have hcount : (get_category_summary pc ps).map (fun e => e.2.playlist_count)
        = allCategories.map (fun c =>
            (((categorize_playlists pc ps).filter
              (fun p => p.category.value == c.value)).map (fun _ => (1 : Nat))).sum) := by
      rw [get_category_summary, List.map_map]
      apply List.map_congr_left
      intro c _
      exact length_eq_sum_ones _
    rw [hcount, partition_sum (fun _ => 1), ← length_eq_sum_ones]
    rw [categorize_playlists, List.length_map]
  · have hvid : (get_category_summary pc ps).map (fun e => e.2.total_videos)
        = allCategories.map (fun c =>
            (((categorize_playlists pc ps).filter
              (fun p => p.category.value == c.value)).map
                (fun p => p.playlist.video_count)).sum) := by
      rw [get_category_summary, List.map_map]
      rfl
    rw [hvid, partition_sum (fun p => p.playlist.video_count),
      categorize_playlists, List.map_map]
    rfl
  · intro e he
    rw [get_category_summary] at he
    obtain ⟨c, -, rfl⟩ := List.mem_map.mp he
    exact List.filter_sublist _

/-- Witness for C5 on the one-element "Pizza" batch: the counts sum to the
batch size 1, the video totals sum to 3, and the Food member list is a
subsequence of the categorized batch. -/
theorem summary_partition_witness :
    ((get_category_summary initCategorizer [pizzaPlaylist]).map
        (fun e => e.2.playlist_count)).sum = [pizzaPlaylist].length
    ∧ ((get_category_summary initCategorizer [pizzaPlaylist]).map
        (fun e => e.2.total_videos)).sum
        = ([pizzaPlaylist].map (fun p => p.video_count)).sum
    ∧ (SummaryEntry.mk 1 3 [pizzaCategorized]).playlists.Sublist
        (categorize_playlists initCategorizer [pizzaPlaylist]) := by
  refine ⟨(get_category_summary_partition initCategorizer [pizzaPlaylist]).2.1,
    (get_category_summary_partition initCategorizer [pizzaPlaylist]).2.2.1, ?_⟩
  have hs : get_category_summary initCategorizer [pizzaPlaylist]
      = ("Food", SummaryEntry.mk 1 3 [pizzaCategorized])
        :: [("Career", SummaryEntry.mk 0 0 []),
            ("Investment", SummaryEntry.mk 0 0 []),
            ("Education", SummaryEntry.mk 0 0 []),
            ("Entertainment", SummaryEntry.mk 0 0 []),
            ("Health & Fitness", SummaryEntry.mk 0 0 []),
            ("Technology", SummaryEntry.mk 0 0 []),
            ("Travel", SummaryEntry.mk 0 0 []),
            ("Lifestyle", SummaryEntry.mk 0 0 []),
            ("Other", SummaryEntry.mk 0 0 [])] := by
    with_unfolding_all rfl
  exact (get_category_summary_partition initCategorizer [pizzaPlaylist]).2.2.2
    ("Food", SummaryEntry.mk 1 3 [pizzaCategorized])
    (by rw [hs]; exact List.mem_cons_self _ _)

/-- C6: `suggest_category_improvements` returns exactly the subsequence (in
input order) of the categorized batch whose confidence is strictly below 0.3
or whose category is Other (inclusive or); hence an (Other, ·)-classified
record always appears, and a record with confidence ≥ 0.3 in a non-Other
category never does. -/
theorem suggest_spec (pc : PlaylistCategorizer) (ps : List Playlist) :
    (suggest_category_improvements pc ps).Sublist (categorize_playlists pc ps)
    ∧ (∀ p : CategorizedPlaylist,
        p ∈ suggest_category_improvements pc ps
          ↔ p ∈ categorize_playlists pc ps
            ∧ (p.category_confidence < 3 / 10
                ∨ p.category = PlaylistCategory.OTHER))
    ∧ (∀ p ∈ categorize_playlists pc ps, p.category = PlaylistCategory.OTHER →
        p ∈ suggest_category_improvements pc ps)
    ∧ (∀ p : CategorizedPlaylist, 3 / 10 ≤ p.category_confidence →
        p.category ≠ PlaylistCategory.OTHER →
        p ∉ suggest_category_improvements pc ps) := by
  refine ⟨List.filter_sublist _, ?_, ?_, ?_⟩
  · intro p
    simp only [suggest_category_improvements, List.mem_filter, suggest_pred_iff]
  · intro p hp hcat
    simp only [suggest_category_improvements, List.mem_filter, suggest_pred_iff]
    exact ⟨hp, Or.inr hcat⟩
  · intro p hconf hcat hmem
    simp only [suggest_category_improvements, List.mem_filter,
      suggest_pred_iff] at hmem
    rcases hmem.2 with h | h
    · exact absurd hconf (not_le.mpr h)
    · exact hcat h

/-- Witness for C6: in the two-element fixture batch, the (Other, 0) record is
suggested for review and the (Food, 1) record is not. -/
theorem suggest_witness :
    randomCategorized ∈ suggest_category_improvements initCategorizer reviewBatch
    ∧ pizzaCategorized1 ∉
        suggest_category_improvements initCategorizer reviewBatch := by
  have hbatch : categorize_playlists initCategorizer reviewBatch
      = [randomCategorized, pizzaCategorized1] := by
    with_unfolding_all rfl
  constructor
  · exact (suggest_spec initCategorizer reviewBatch).2.2.1 randomCategorized
      (by rw [hbatch]; exact List.mem_cons_self _ _) rfl
  · exact (suggest_spec initCategorizer reviewBatch).2.2.2 pizzaCategorized1
      (by norm_num [pizzaCategorized1]) (by decide)

/-- C7: when no keyword of any effective rule occurs (whole-word) in the
normalized text — so the score map stays empty — `categorize_playlist`
returns exactly (Other, 0.0); in particular "Random stuff" / "Various videos"
classifies to (Other, 0.0) under the builtin rules. -/
theorem categorize_playlist_fallback :
    (∀ (pc : PlaylistCategorizer) (title description : String),
      (∀ r ∈ pc.allRules, ∀ kw ∈ r.keywords,
        countMatches (lowerData kw) (normalize title description) = 0) →
      categorize_playlist pc title description = (PlaylistCategory.OTHER, 0))
    ∧ categorize_playlist initCategorizer "Random stuff" "Various videos"
        = (PlaylistCategory.OTHER, 0) := by
  constructor
  · intro pc t d h
    have hempty : scoreRules pc.allRules (normalize t d) = [] := by
      rw [scoreRules]
      exact scoreRules_foldl_no_match (normalize t d) pc.allRules []
        fun r hr => by
          rw [ruleScore_zero (normalize t d) r fun kw hkw => h r hr kw hkw]
          exact lt_irrefl 0
    simp only [categorize_playlist, hempty, bestEntry]
  · decide

/-- Witness for C7 on a categorizer with no rules at all. -/
theorem fallback_witness :
    categorize_playlist { rules := [], custom_rules := [] } "hello" ""
      = (PlaylistCategory.OTHER, 0) :=
  categorize_playlist_fallback.1 { rules := [], custom_rules := [] } "hello" ""
    (by intro r hr; simp [PlaylistCategorizer.allRules] at hr)

/-- C8: appending via `add_custom_rule` a rule whose sole keyword is an opaque
identifier leaves `categorize_playlist` unchanged whenever that identifier
does not occur (as a whole word/phrase) in the item's normalized
title-plus-description text. -/
theorem add_custom_rule_id_no_effect (pc : PlaylistCategorizer)
    (title description pid : String) (cat : PlaylistCategory) (w : Int)
    (h : countMatches (lowerData pid) (normalize title description) = 0) :
    categorize_playlist (add_custom_rule pc [pid] cat w) title description
      = categorize_playlist pc title description := by
  have hall : (add_custom_rule pc [pid] cat w).allRules
      = pc.allRules ++ [⟨[pid], cat, w⟩] := by
    simp [add_custom_rule, PlaylistCategorizer.allRules]
  have hzero : ruleScore (normalize title description) ⟨[pid], cat, w⟩ = 0 := by
    apply ruleScore_zero
    intro kw hkw
    simp only [List.mem_singleton] at hkw
    subst hkw
    exact h
  rw [categorize_playlist, categorize_playlist, hall,
    scoreRules_append_zero _ _ _ hzero]

/-- Witness for C8: adding a rule keyed on a typical API identifier does not
change the classification of the "Pizza" playlist. -/
theorem add_custom_rule_witness :
    categorize_playlist
        (add_custom_rule initCategorizer ["PLabc123"] PlaylistCategory.FOOD 10)
        "Pizza" "Delicious pizza recipes"
      = categorize_playlist initCategorizer "Pizza" "Delicious pizza recipes" :=
  add_custom_rule_id_no_effect initCategorizer "Pizza" "Delicious pizza recipes"
    "PLabc123" PlaylistCategory.FOOD 10 (by decide)

/-- C9 counterexample: the empty label "" equals no enumerated category value,
yet the handler answers "Category is required" (missing), not the
"Invalid category" rejection — so "rejects as InvalidCategoryLabel iff the
label matches no enum value" fails at the supplied string "". -/
theorem update_category_empty_label_cex :
    update_playlist_category initCategorizer "PL1" (some "")
        = UpdateResult.missingCategory
    ∧ update_playlist_category initCategorizer "PL1" (some "")
        ≠ UpdateResult.invalidCategory ""
    ∧ ∀ c : PlaylistCategory, c.value ≠ "" := by
  exact ⟨rfl, by decide, by decide⟩

/-- C9 (amended): for every non-empty caller-supplied category string, the
handler returns the "Invalid category" rejection iff the string equals no
enumerated category value — never silently coercing — and any string equal to
some enumerated value is accepted and translated into `add_custom_rule` with
the playlist id as sole keyword and weight 10.  (An absent or empty category
is instead rejected as "Category is required".) -/
theorem update_category_invalid_iff (pc : PlaylistCategorizer)
    (pid s : String) (hs : s ≠ "") :
    ((update_playlist_category pc pid (some s)
        = UpdateResult.invalidCategory s)
      ↔ ∀ c : PlaylistCategory, c.value ≠ s)
    ∧ (∀ c : PlaylistCategory, c.value = s →
        update_playlist_category pc pid (some s)
          = UpdateResult.updated (add_custom_rule pc [pid] c 10) pid s) := by
  constructor
  · constructor
    · intro h
      simp only [update_playlist_category, if_neg hs] at h
      cases hc : categoryOfString s with
      | none => exact (categoryOfString_none s).mp hc
      | some c => rw [hc] at h; simp at h
    · intro h
      simp only [update_playlist_category, if_neg hs,
        (categoryOfString_none s).mpr h]
  · intro c hc
    simp only [update_playlist_category, if_neg hs,
      (categoryOfString_some s c).mpr hc]

/-- Witness for C9 (amended): the valid label "Food" is accepted and turned
into a custom rule, and the invalid-rejection equivalence is inhabited. -/
theorem update_category_invalid_iff_witness :
    update_playlist_category initCategorizer "PL1" (some "Food")
      = UpdateResult.updated
          (add_custom_rule initCategorizer ["PL1"] PlaylistCategory.FOOD 10)
          "PL1" "Food" :=
  (update_category_invalid_iff initCategorizer "PL1" "Food" (by decide)).2
    PlaylistCategory.FOOD rfl

/-- C10 counterexample: with a custom rule of positive weight targeting
Other (obtainable through the override endpoint, which accepts the label
"Other"), the classifier returns Other with confidence 1/20 ≠ 0 — so "Other
is never produced with positive confidence" fails for effective rule sets
with positive weights. -/
theorem other_positive_conf_cex :
    (∀ r ∈ (add_custom_rule initCategorizer ["zzz"]
        PlaylistCategory.OTHER 1).allRules, 0 < r.weight)
    ∧ categorize_playlist
        (add_custom_rule initCategorizer ["zzz"] PlaylistCategory.OTHER 1)
        "zzz" ""
        = (PlaylistCategory.OTHER, 1 / 20)
    ∧ (1 : ℚ) / 20 ≠ 0 := by
  refine ⟨by decide, by with_unfolding_all rfl, by norm_num⟩

/-- C10 (amended): if every effective rule has positive weight AND no
effective rule targets Other, then `categorize_playlist` returns Other iff it
returns confidence 0; Other arises only from an empty score map; and whenever
any rule matched (non-empty score map) the confidence is at least 1/20 = 0.05. -/
theorem other_iff_zero_conf (pc : PlaylistCategorizer)
    (title description : String)
    (_hw : ∀ r ∈ pc.allRules, 0 < r.weight)
    (hno : ∀ r ∈ pc.allRules, r.category ≠ PlaylistCategory.OTHER) :
    ((categorize_playlist pc title description).1 = PlaylistCategory.OTHER
        ↔ (categorize_playlist pc title description).2 = 0)
    ∧ ((categorize_playlist pc title description).1 = PlaylistCategory.OTHER
        → scoreRules pc.allRules (normalize title description) = [])
    ∧ (scoreRules pc.allRules (normalize title description) ≠ []
        → 1 / 20 ≤ (categorize_playlist pc title description).2) := by
  cases hm : bestEntry (scoreRules pc.allRules (normalize title description)) with
  | none =>
    have hnil := (bestEntry_eq_none _).mp hm
    simp only [categorize_playlist, hm]
    exact ⟨by simp, fun _ => hnil, fun hne => absurd hnil hne⟩
  | some b =>
    have hmem := bestEntry_mem _ b hm
    have hpos := scoreRules_pos pc.allRules (normalize title description) b hmem
    obtain ⟨r, hr, hrc⟩ :=
      scoreRules_cats pc.allRules (normalize title description) b hmem
    have hbo : b.1 ≠ PlaylistCategory.OTHER := fun hb => hno r hr (hrc.trans hb)
    have hconf : (1 : ℚ) / 20 ≤ min ((b.2 : ℚ) / 20) 1 := by
      have h1 : (1 : ℚ) ≤ (b.2 : ℚ) := by
        exact_mod_cast (by omega : (1 : Int) ≤ b.2)
      refine le_min ?_ (by norm_num)
      exact (div_le_div_iff_of_pos_right (by norm_num)).mpr h1
    have hconf0 : (0 : ℚ) < min ((b.2 : ℚ) / 20) 1 :=
      lt_of_lt_of_le (by norm_num) hconf
    simp only [categorize_playlist, hm]
    exact ⟨⟨fun hcat => absurd hcat hbo, fun hc => absurd hc hconf0.ne'⟩,
      fun hcat => absurd hcat hbo, fun _ => hconf⟩

/-- Witness for C10 (amended) at the builtin rule set (all weights positive,
none targeting Other) on the "Pizza" input. -/
theorem other_iff_zero_conf_witness :
    (((categorize_playlist initCategorizer "Pizza" "Delicious pizza recipes").1
        = PlaylistCategory.OTHER)
      ↔ ((categorize_playlist initCategorizer "Pizza"
            "Delicious pizza recipes").2 = 0))
    ∧ (1 : ℚ) / 20
        ≤ (categorize_playlist initCategorizer "Pizza"
            "Delicious pizza recipes").2 :=
  ⟨(other_iff_zero_conf initCategorizer "Pizza" "Delicious pizza recipes"
      (by decide) (by decide)).1,
   (other_iff_zero_conf initCategorizer "Pizza" "Delicious pizza recipes"
      (by decide) (by decide)).2.2 (by decide)⟩

end YTO
